import Mathlib

/-!
Verification of the `ethnographers` crate against its specification.

The crate's core, `proposed_dates` in `src/lib.rs`, checks a set of temporal
facts about deceased people for internal consistency by building a directed
constraint graph over birth/death events, topologically sorting it, and
projecting the order back to per-person birth/death date arrays.

Node numbering follows the Rust code: `petgraph` assigns node indices in
insertion order, so `birth_nodes[i - 1] = i - 1` (for `i` in `1..=n`) and
`death_nodes[i - 1] = n + (i - 1)`.  The graph is embedded as the node count
`2 * n` together with the list of directed edges between node indices, in the
order the Rust code inserts them.

The topological sort comes from the external `petgraph` dependency, whose
sources are not part of this repository; it is modelled from the spec (§4.2):
a standard topological sort that emits, one at a time, a node with no
remaining in-edges, and fails exactly when the (remaining) graph has no such
node, i.e. contains a cycle.  Any linear extension is acceptable per the spec,
so the model's tie-breaking (first source in node order) stands in for
petgraph's DFS order.
-/

/-- A directed graph: nodes are `0, …, numNodes - 1`, edges a list of
ordered pairs of node indices (parallel edges allowed, as in `petgraph`). -/
structure Graph where
  numNodes : Nat
  edges : List (Nat × Nat)
  deriving Repr, DecidableEq

/-- The constraint graph built by the builder phase of `proposed_dates`
(`src/lib.rs` lines 28–60): nodes `B(i) = i - 1` and `D(i) = n + (i - 1)`,
an edge `(B(i), D(i))` for every person, an edge `(D(a), B(b))` for every
form-1 fact `(a, b)`, and edges `(B(a), D(b))`, `(B(b), D(a))` for every
form-2 fact `(a, b)`.  Subtraction is `Nat` subtraction; the Rust code's
index arithmetic is separately modelled by `buildEdges?` below. -/
def buildGraph (fact_form1 fact_form2 : List (Nat × Nat)) (n : Nat) : Graph where
  numNodes := 2 * n
  edges :=
    (List.range n).map (fun k => (k, n + k))
      ++ fact_form1.map (fun p => (n + (p.1 - 1), p.2 - 1))
      ++ fact_form2.flatMap (fun p => [(p.1 - 1, n + (p.2 - 1)), (p.2 - 1, n + (p.1 - 1))])

/-- Modelled from the spec: first node of `rem` with no in-edge from `rem`
(the "no remaining dependencies" choice of §4.2's topological sort). -/
def pickSource (g : Graph) (rem : List Nat) : Option Nat :=
  rem.find? (fun v => rem.all (fun u => !decide ((u, v) ∈ g.edges)))

/-- Modelled from the spec: the loop of a standard (Kahn-style) topological
sort over the nodes `rem`, with enough `fuel`; stands in for `petgraph`'s
`toposort`, whose source is not in this repository.  Fails exactly when some
nonempty set of remaining nodes has no source, i.e. on a cycle (§4.2). -/
def topoGo (g : Graph) : Nat → List Nat → Option (List Nat)
  | _, [] => some []
  | 0, _ :: _ => none
  | fuel + 1, v :: rest =>
    match pickSource g (v :: rest) with
    | none => none
    | some w => (topoGo g fuel ((v :: rest).erase w)).map (fun out => w :: out)

/-- Modelled from the spec: topological sort of the whole graph (§4.2). -/
def toposort (g : Graph) : Option (List Nat) :=
  topoGo g g.numNodes (List.range g.numNodes)

/-- The projection loop of `proposed_dates` (`src/lib.rs` lines 67–73):
walk the topological order, assigning `date + 1` to the birth slot `ev`
(when `ev < n`, i.e. the node is labelled `Birth (ev + 1)`) or to the death
slot `ev - n` (the node is labelled `Death (ev - n + 1)`). -/
def projectGo (n : Nat) : List Nat → Nat → List Nat → List Nat → List Nat × List Nat
  | [], _, births, deaths => (births, deaths)
  | ev :: rest, date, births, deaths =>
    if ev < n then projectGo n rest (date + 1) (births.set ev (date + 1)) deaths
    else projectGo n rest (date + 1) births (deaths.set (ev - n) (date + 1))

/-- `proposed_dates` (`src/lib.rs` lines 18–77): build the constraint graph,
topologically sort it, and on success project the order to the proposed
birth and death date arrays (both initialised to `vec![0; n]`). -/
def proposed_dates (fact_form1 fact_form2 : List (Nat × Nat)) (n : Nat) :
    Option (List Nat × List Nat) :=
  (toposort (buildGraph fact_form1 fact_form2 n)).map (fun topo =>
    projectGo n topo 0 (List.replicate n 0) (List.replicate n 0))

/-- Checked `u32` subtraction `i - 1`: fails (models a Rust panic /
wrap-to-out-of-bounds) when `i = 0`. -/
def sub1? (i : Nat) : Option Nat := if 1 ≤ i then some (i - 1) else none

/-- The `birth_nodes` vector of `proposed_dates`: node index `i - 1`
for `i` in `1..=n`. -/
def birthNodes (n : Nat) : List Nat := List.range n

/-- The `death_nodes` vector of `proposed_dates`: node index `n + (i - 1)`
for `i` in `1..=n`. -/
def deathNodes (n : Nat) : List Nat := (List.range n).map (fun k => n + k)

/-- Checked builder loop for form-1 facts: each fact `(a, b)` performs the
subtractions `a - 1`, `b - 1` and the vector indexings
`death_nodes[a - 1]`, `birth_nodes[b - 1]` of `src/lib.rs` lines 40–46,
each of which can fail. -/
def form1Edges? (n : Nat) : List (Nat × Nat) → Option (List (Nat × Nat))
  | [] => some []
  | (a, b) :: rest => do
    let ka ← sub1? a
    let da ← (deathNodes n).get? ka
    let kb ← sub1? b
    let bb ← (birthNodes n).get? kb
    let tail ← form1Edges? n rest
    some ((da, bb) :: tail)

/-- Checked builder loop for form-2 facts (`src/lib.rs` lines 49–60). -/
def form2Edges? (n : Nat) : List (Nat × Nat) → Option (List (Nat × Nat))
  | [] => some []
  | (a, b) :: rest => do
    let ka ← sub1? a
    let ba ← (birthNodes n).get? ka
    let kb ← sub1? b
    let db ← (deathNodes n).get? kb
    let bb ← (birthNodes n).get? kb
    let da ← (deathNodes n).get? ka
    let tail ← form2Edges? n rest
    some ((ba, db) :: (bb, da) :: tail)

/-- Checked edge construction of the builder phase: the per-person
birth→death edges never fail (their loop index is in `1..=n` by
construction); the fact loops may. -/
def buildEdges? (fact_form1 fact_form2 : List (Nat × Nat)) (n : Nat) :
    Option (List (Nat × Nat)) :=
  match form1Edges? n fact_form1, form2Edges? n fact_form2 with
  | some e1, some e2 => some ((List.range n).map (fun k => (k, n + k)) ++ e1 ++ e2)
  | _, _ => none

/-- Checked projection loop: makes explicit every fallible operation of
`src/lib.rs` lines 67–73 — the node lookup `g[event]` (requires
`ev < 2 * n`), the subtraction `i - 1` on the label's person index, and the
bounds check of the vector write. -/
def projectGo? (n : Nat) : List Nat → Nat → List Nat → List Nat →
    Option (List Nat × List Nat)
  | [], _, births, deaths => some (births, deaths)
  | ev :: rest, date, births, deaths =>
    if ev < n then
      match sub1? (ev + 1) with
      | none => none
      | some k =>
        if k < births.length then
          projectGo? n rest (date + 1) (births.set k (date + 1)) deaths
        else none
    else if ev < 2 * n then
      match sub1? (ev - n + 1) with
      | none => none
      | some k =>
        if k < deaths.length then
          projectGo? n rest (date + 1) births (deaths.set k (date + 1))
        else none
    else none

/-- `proposed_dates` with every fallible operation explicit: the outer
`Option` is `none` exactly when some index operation would go out of bounds
or underflow (a Rust panic); the inner `Option` is the function's own
success/failure result. -/
def proposed_dates? (fact_form1 fact_form2 : List (Nat × Nat)) (n : Nat) :
    Option (Option (List Nat × List Nat)) :=
  match buildEdges? fact_form1 fact_form2 n with
  | none => none
  | some edges =>
    match toposort ⟨2 * n, edges⟩ with
    | none => some none
    | some topo =>
      (projectGo? n topo 0 (List.replicate n 0) (List.replicate n 0)).map some

/-- One directed step along an edge of `g`. -/
def hasEdge (g : Graph) (u v : Nat) : Prop := (u, v) ∈ g.edges

/-- `g` contains a directed cycle: some node reaches itself by a nonempty
edge path. -/
def hasCycle (g : Graph) : Prop := ∃ v, Relation.TransGen (hasEdge g) v v

/-- All edge endpoints are genuine nodes.  Holds for the constraint graph
whenever the fact indices satisfy the `[1, n]` precondition. -/
def edgesValid (g : Graph) : Prop :=
  ∀ p ∈ g.edges, p.1 < g.numNodes ∧ p.2 < g.numNodes

/-- The spec's precondition on a fact list: both person indices of every
fact lie in `[1, n]`. -/
def factsInRange (ff : List (Nat × Nat)) (n : Nat) : Prop :=
  ∀ p ∈ ff, 1 ≤ p.1 ∧ p.1 ≤ n ∧ 1 ≤ p.2 ∧ p.2 ≤ n

instance : DecidablePred (hasEdge g u) := fun _ => by unfold hasEdge; infer_instance

instance : Decidable (edgesValid g) := by unfold edgesValid; infer_instance

instance : Decidable (factsInRange ff n) := by unfold factsInRange; infer_instance

theorem pickSource_some {g : Graph} {rem : List Nat} {v : Nat}
    (h : pickSource g rem = some v) : v ∈ rem ∧ ∀ u ∈ rem, (u, v) ∉ g.edges := by
  refine ⟨List.mem_of_find?_eq_some h, ?_⟩
  have hp := List.find?_some h
  simpa using hp

theorem pickSource_none {g : Graph} {rem : List Nat}
    (h : pickSource g rem = none) : ∀ v ∈ rem, ∃ u ∈ rem, (u, v) ∈ g.edges := by
  intro v hv
  have := List.find?_eq_none.mp h v hv
  simpa using this

theorem topoGo_perm {g : Graph} :
    ∀ (fuel : Nat) (rem out : List Nat), rem.length ≤ fuel →
      topoGo g fuel rem = some out → List.Perm out rem := by
  intro fuel
  induction fuel with
  | zero =>
    intro rem out hlen h
    cases rem with
    | nil => simp only [topoGo, Option.some.injEq] at h; subst h; rfl
    | cons v rest => simp at hlen
  | succ fuel ih =>
    intro rem out hlen h
    cases rem with
    | nil => simp only [topoGo, Option.some.injEq] at h; subst h; rfl
    | cons v rest =>
      rw [topoGo] at h
      rcases hp : pickSource g (v :: rest) with _ | w <;> rw [hp] at h
      · exact absurd h (by simp)
      · rcases Option.map_eq_some'.mp h with ⟨out', hout', rfl⟩
        have hw : w ∈ v :: rest := (pickSource_some hp).1
        have hlen' : ((v :: rest).erase w).length ≤ fuel := by
          rw [List.length_erase_of_mem hw]
          simp only [List.length_cons] at hlen ⊢
          omega
        have hperm := ih _ _ hlen' hout'
        exact ((hperm.cons w).trans (List.perm_cons_erase hw).symm)

theorem topoGo_indexOf {g : Graph} :
    ∀ (fuel : Nat) (rem out : List Nat), rem.Nodup → rem.length ≤ fuel →
      topoGo g fuel rem = some out →
      ∀ u v : Nat, (u, v) ∈ g.edges → u ∈ rem → v ∈ rem →
        List.indexOf u out < List.indexOf v out := by
  intro fuel
  induction fuel with
  | zero =>
    intro rem out _ hlen h u v _ hu _
    cases rem with
    | nil => exact absurd hu (List.not_mem_nil u)
    | cons a rest => simp at hlen
  | succ fuel ih =>
    intro rem out hnd hlen h u v he hu hv
    cases rem with
    | nil => exact absurd hu (List.not_mem_nil u)
    | cons a rest =>
      rw [topoGo] at h
      rcases hp : pickSource g (a :: rest) with _ | w <;> rw [hp] at h
      · exact absurd h (by simp)
      · rcases Option.map_eq_some'.mp h with ⟨out', hout', rfl⟩
        obtain ⟨hw, hnoin⟩ := pickSource_some hp
        have hvne : w ≠ v := by
          rintro rfl
          exact hnoin u hu he
        by_cases huw : u = w
        · subst huw
          rw [List.indexOf_cons_self, List.indexOf_cons_ne _ hvne]
          exact Nat.succ_pos _
        · have hune : w ≠ u := fun hh => huw hh.symm
          have hu' : u ∈ (a :: rest).erase w := (List.mem_erase_of_ne huw).mpr hu
          have hv' : v ∈ (a :: rest).erase w :=
            (List.mem_erase_of_ne (fun hh => hvne hh.symm)).mpr hv
          have hlen' : ((a :: rest).erase w).length ≤ fuel := by
            rw [List.length_erase_of_mem hw]
            simp only [List.length_cons] at hlen ⊢
            omega
          have := ih _ _ (hnd.erase w) hlen' hout' u v he hu' hv'
          rw [List.indexOf_cons_ne _ hune, List.indexOf_cons_ne _ hvne]
          exact Nat.succ_lt_succ this

theorem toposort_perm {g : Graph} {out : List Nat} (h : toposort g = some out) :
    List.Perm out (List.range g.numNodes) :=
  topoGo_perm g.numNodes _ _ (by simp) h

theorem toposort_nodup {g : Graph} {out : List Nat} (h : toposort g = some out) :
    out.Nodup :=
  (toposort_perm h).nodup_iff.mpr (List.nodup_range _)

theorem toposort_mem {g : Graph} {out : List Nat} {k : Nat}
    (h : toposort g = some out) (hk : k < g.numNodes) : k ∈ out :=
  ((toposort_perm h).mem_iff).mpr (List.mem_range.mpr hk)

theorem toposort_length {g : Graph} {out : List Nat} (h : toposort g = some out) :
    out.length = g.numNodes := by
  have := (toposort_perm h).length_eq
  simpa using this

theorem toposort_indexOf {g : Graph} {out : List Nat} {u v : Nat}
    (h : toposort g = some out) (he : (u, v) ∈ g.edges)
    (hu : u < g.numNodes) (hv : v < g.numNodes) :
    List.indexOf u out < List.indexOf v out :=
  topoGo_indexOf g.numNodes _ _ (List.nodup_range _) (by simp) h u v he
    (List.mem_range.mpr hu) (List.mem_range.mpr hv)

theorem topoGo_none {g : Graph} :
    ∀ (fuel : Nat) (rem : List Nat), rem.length ≤ fuel → topoGo g fuel rem = none →
      ∃ S : List Nat, S ≠ [] ∧ ∀ v ∈ S, ∃ u ∈ S, (u, v) ∈ g.edges := by
  intro fuel
  induction fuel with
  | zero =>
    intro rem hlen h
    cases rem with
    | nil => simp [topoGo] at h
    | cons v rest => simp at hlen
  | succ fuel ih =>
    intro rem hlen h
    cases rem with
    | nil => simp [topoGo] at h
    | cons a rest =>
      rw [topoGo] at h
      rcases hp : pickSource g (a :: rest) with _ | w <;> rw [hp] at h
      · exact ⟨a :: rest, by simp, pickSource_none hp⟩
      · rcases Option.map_eq_none'.mp h with hnone
        have hw : w ∈ a :: rest := (pickSource_some hp).1
        have hlen' : ((a :: rest).erase w).length ≤ fuel := by
          rw [List.length_erase_of_mem hw]
          simp only [List.length_cons] at hlen ⊢
          omega
        exact ih _ hlen' hnone

theorem exists_cycle_of_stuck {g : Graph} (S : List Nat) (hne : S ≠ [])
    (h : ∀ v ∈ S, ∃ u ∈ S, (u, v) ∈ g.edges) : hasCycle g := by
  classical
  obtain ⟨v₀, hv₀⟩ := List.exists_mem_of_ne_nil S hne
  have hpred : ∀ x : {a // a ∈ S}, ∃ y : {a // a ∈ S}, hasEdge g y.1 x.1 := by
    rintro ⟨x, hx⟩
    obtain ⟨u, hu, he⟩ := h x hx
    exact ⟨⟨u, hu⟩, he⟩
  choose f hf using hpred
  set seq : Nat → {a // a ∈ S} := fun k => f^[k] ⟨v₀, hv₀⟩ with hseq
  have hstep : ∀ k, hasEdge g (seq (k + 1)).1 (seq k).1 := by
    intro k
    have hit : seq (k + 1) = f (seq k) := Function.iterate_succ_apply' f k _
    rw [hit]
    exact hf (seq k)
  have htrans : ∀ j i, i < j → Relation.TransGen (hasEdge g) (seq j).1 (seq i).1 := by
    intro j
    induction j with
    | zero => intro i hij; omega
    | succ j ihj =>
      intro i hij
      rcases Nat.lt_succ_iff_lt_or_eq.mp hij with h' | h'
      · exact Relation.TransGen.head (hstep j) (ihj i h')
      · subst h'
        exact Relation.TransGen.single (hstep i)
  have hmap : ∀ k ∈ Finset.range (S.toFinset.card + 1), (seq k).1 ∈ S.toFinset :=
    fun k _ => List.mem_toFinset.mpr (seq k).2
  obtain ⟨i, hi, j, hj, hij, heq⟩ :=
    Finset.exists_ne_map_eq_of_card_lt_of_maps_to (by simp) hmap
  rcases lt_or_gt_of_ne hij with hlt | hgt
  · refine ⟨(seq i).1, ?_⟩
    have hx := htrans j i hlt
    rw [← heq] at hx
    exact hx
  · refine ⟨(seq j).1, ?_⟩
    have hx := htrans i j hgt
    rw [heq] at hx
    exact hx

theorem hasCycle_of_toposort_none {g : Graph} (h : toposort g = none) : hasCycle g := by
  obtain ⟨S, hne, hstuck⟩ := topoGo_none g.numNodes _ (by simp) h
  exact exists_cycle_of_stuck S hne hstuck

theorem not_hasCycle_of_toposort_some {g : Graph} {out : List Nat}
    (hval : edgesValid g) (h : toposort g = some out) : ¬ hasCycle g := by
  rintro ⟨v, hv⟩
  have hmono : ∀ a b : Nat, Relation.TransGen (hasEdge g) a b →
      List.indexOf a out < List.indexOf b out := by
    intro a b hab
    induction hab with
    | single hs =>
      rcases hval _ hs with ⟨h1, h2⟩
      exact toposort_indexOf h hs h1 h2
    | tail _ hs ihs =>
      rcases hval _ hs with ⟨h1, h2⟩
      exact ihs.trans (toposort_indexOf h hs h1 h2)
  exact absurd (hmono v v hv) (lt_irrefl _)

theorem toposort_none_iff {g : Graph} (hval : edgesValid g) :
    toposort g = none ↔ hasCycle g := by
  constructor
  · exact hasCycle_of_toposort_none
  · intro hc
    rcases hsort : toposort g with _ | out
    · rfl
    · exact absurd hc (not_hasCycle_of_toposort_some hval hsort)

theorem projectGo_fst_length (n : Nat) :
    ∀ (topo : List Nat) (date : Nat) (b d : List Nat),
      ((projectGo n topo date b d).1).length = b.length := by
  intro topo
  induction topo with
  | nil => intro date b d; rfl
  | cons ev rest ih =>
    intro date b d
    rw [projectGo]
    by_cases h : ev < n
    · rw [if_pos h, ih]
      simp
    · rw [if_neg h, ih]

theorem projectGo_snd_length (n : Nat) :
    ∀ (topo : List Nat) (date : Nat) (b d : List Nat),
      ((projectGo n topo date b d).2).length = d.length := by
  intro topo
  induction topo with
  | nil => intro date b d; rfl
  | cons ev rest ih =>
    intro date b d
    rw [projectGo]
    by_cases h : ev < n
    · rw [if_pos h, ih]
    · rw [if_neg h, ih]
      simp

theorem projectGo_fst_get?_not_mem (n : Nat) :
    ∀ (topo : List Nat) (date : Nat) (b d : List Nat) (j : Nat), j ∉ topo →
      ((projectGo n topo date b d).1).get? j = b.get? j := by
  intro topo
  induction topo with
  | nil => intro date b d j _; rfl
  | cons ev rest ih =>
    intro date b d j hj
    have hne : ev ≠ j := fun h => hj (h ▸ List.mem_cons_self ev rest)
    have hj' : j ∉ rest := fun h => hj (List.mem_cons_of_mem ev h)
    rw [projectGo]
    by_cases h : ev < n
    · rw [if_pos h, ih _ _ _ _ hj', List.get?_set_ne _ _ hne]
    · rw [if_neg h, ih _ _ _ _ hj']

theorem projectGo_snd_get?_not_mem (n : Nat) :
    ∀ (topo : List Nat) (date : Nat) (b d : List Nat) (j : Nat), (n + j) ∉ topo →
      ((projectGo n topo date b d).2).get? j = d.get? j := by
  intro topo
  induction topo with
  | nil => intro date b d j _; rfl
  | cons ev rest ih =>
    intro date b d j hj
    have hj' : (n + j) ∉ rest := fun h => hj (List.mem_cons_of_mem ev h)
    rw [projectGo]
    by_cases h : ev < n
    · rw [if_pos h, ih _ _ _ _ hj']
    · have hne : ev - n ≠ j := by
        intro hh
        apply hj
        have : ev = n + j := by omega
        exact this ▸ List.mem_cons_self ev rest
      rw [if_neg h, ih _ _ _ _ hj', List.get?_set_ne _ _ hne]

theorem projectGo_fst_get?_mem (n : Nat) :
    ∀ (topo : List Nat), topo.Nodup →
      ∀ (date : Nat) (b d : List Nat) (j : Nat), j ∈ topo → j < n → j < b.length →
      ((projectGo n topo date b d).1).get? j =
        some (date + List.indexOf j topo + 1) := by
  intro topo
  induction topo with
  | nil => intro _ date b d j hj; exact absurd hj (List.not_mem_nil j)
  | cons ev rest ih =>
    intro hnd date b d j hj hjn hjb
    rw [projectGo]
    by_cases hev : ev = j
    · subst hev
      have hnotin : ev ∉ rest := (List.nodup_cons.mp hnd).1
      rw [if_pos hjn, projectGo_fst_get?_not_mem n rest _ _ _ _ hnotin,
        List.get?_set_eq_of_lt _ hjb, List.indexOf_cons_self]
    · have hj' : j ∈ rest := by
        rcases List.mem_cons.mp hj with h | h
        · exact absurd h.symm hev
        · exact h
      have hnd' : rest.Nodup := (List.nodup_cons.mp hnd).2
      by_cases h : ev < n
      · rw [if_pos h, ih hnd' _ _ _ _ hj' hjn (by simpa using hjb),
          List.indexOf_cons_ne _ hev]
        exact congrArg some (by omega)
      · rw [if_neg h, ih hnd' _ _ _ _ hj' hjn hjb, List.indexOf_cons_ne _ hev]
        exact congrArg some (by omega)

theorem projectGo_snd_get?_mem (n : Nat) :
    ∀ (topo : List Nat), topo.Nodup →
      ∀ (date : Nat) (b d : List Nat) (j : Nat), (n + j) ∈ topo → j < d.length →
      ((projectGo n topo date b d).2).get? j =
        some (date + List.indexOf (n + j) topo + 1) := by
  intro topo
  induction topo with
  | nil => intro _ date b d j hj; exact absurd hj (List.not_mem_nil _)
  | cons ev rest ih =>
    intro hnd date b d j hj hjd
    rw [projectGo]
    by_cases hev : ev = n + j
    · subst hev
      have hnotin : (n + j) ∉ rest := (List.nodup_cons.mp hnd).1
      have hlt : ¬ n + j < n := by omega
      have hsub : n + j - n = j := by omega
      rw [if_neg hlt, projectGo_snd_get?_not_mem n rest _ _ _ _ hnotin, hsub,
        List.get?_set_eq_of_lt _ hjd, List.indexOf_cons_self]
    · have hj' : (n + j) ∈ rest := by
        rcases List.mem_cons.mp hj with h | h
        · exact absurd h.symm hev
        · exact h
      have hnd' : rest.Nodup := (List.nodup_cons.mp hnd).2
      have hevne : ev ≠ n + j := hev
      by_cases h : ev < n
      · rw [if_pos h, ih hnd' _ _ _ _ hj' hjd, List.indexOf_cons_ne _ hev]
        exact congrArg some (by omega)
      · rw [if_neg h, ih hnd' _ _ _ _ hj' (by simpa using hjd),
          List.indexOf_cons_ne _ hev]
        exact congrArg some (by omega)

theorem buildGraph_numNodes (ff1 ff2 : List (Nat × Nat)) (n : Nat) :
    (buildGraph ff1 ff2 n).numNodes = 2 * n := rfl

theorem buildGraph_edges (ff1 ff2 : List (Nat × Nat)) (n : Nat) :
    (buildGraph ff1 ff2 n).edges =
      (List.range n).map (fun k => (k, n + k))
        ++ ff1.map (fun p => (n + (p.1 - 1), p.2 - 1))
        ++ ff2.flatMap (fun p =>
            [(p.1 - 1, n + (p.2 - 1)), (p.2 - 1, n + (p.1 - 1))]) := rfl

theorem mem_edges_birth_death {ff1 ff2 : List (Nat × Nat)} {n i : Nat}
    (h1 : 1 ≤ i) (h2 : i ≤ n) :
    (i - 1, n + (i - 1)) ∈ (buildGraph ff1 ff2 n).edges := by
  rw [buildGraph_edges]
  exact List.mem_append_left _ (List.mem_append_left _
    (List.mem_map.mpr ⟨i - 1, List.mem_range.mpr (by omega), rfl⟩))

theorem mem_edges_form1 {ff1 ff2 : List (Nat × Nat)} {n a b : Nat}
    (h : (a, b) ∈ ff1) :
    (n + (a - 1), b - 1) ∈ (buildGraph ff1 ff2 n).edges := by
  rw [buildGraph_edges]
  exact List.mem_append_left _ (List.mem_append_right _
    (List.mem_map.mpr ⟨(a, b), h, rfl⟩))

theorem mem_edges_form2_left {ff1 ff2 : List (Nat × Nat)} {n a b : Nat}
    (h : (a, b) ∈ ff2) :
    (a - 1, n + (b - 1)) ∈ (buildGraph ff1 ff2 n).edges := by
  rw [buildGraph_edges]
  exact List.mem_append_right _ (List.mem_flatMap.mpr ⟨(a, b), h, by simp⟩)

theorem mem_edges_form2_right {ff1 ff2 : List (Nat × Nat)} {n a b : Nat}
    (h : (a, b) ∈ ff2) :
    (b - 1, n + (a - 1)) ∈ (buildGraph ff1 ff2 n).edges := by
  rw [buildGraph_edges]
  exact List.mem_append_right _ (List.mem_flatMap.mpr ⟨(a, b), h, by simp⟩)

theorem buildGraph_valid {ff1 ff2 : List (Nat × Nat)} {n : Nat}
    (h1 : factsInRange ff1 n) (h2 : factsInRange ff2 n) :
    edgesValid (buildGraph ff1 ff2 n) := by
  rintro ⟨u, v⟩ hmem
  rw [buildGraph_edges] at hmem
  rw [buildGraph_numNodes]
  dsimp only
  simp only [List.mem_append, List.mem_map, List.mem_flatMap, List.mem_range] at hmem
  rcases hmem with (⟨k, hk, heq⟩ | ⟨p, hp, heq⟩) | ⟨p, hp, heq⟩
  · injection heq with e1 e2
    constructor <;> omega
  · obtain ⟨hp1, hp2, hp3, hp4⟩ := h1 p hp
    injection heq with e1 e2
    constructor <;> omega
  · obtain ⟨hp1, hp2, hp3, hp4⟩ := h2 p hp
    simp only [List.mem_cons, List.not_mem_nil, or_false, Prod.mk.injEq] at heq
    rcases heq with ⟨e1, e2⟩ | ⟨e1, e2⟩ <;> constructor <;> omega

theorem proposed_dates_some_iff {ff1 ff2 : List (Nat × Nat)} {n : Nat}
    {bd : List Nat × List Nat} :
    proposed_dates ff1 ff2 n = some bd ↔
      ∃ topo, toposort (buildGraph ff1 ff2 n) = some topo ∧
        projectGo n topo 0 (List.replicate n 0) (List.replicate n 0) = bd := by
  simp [proposed_dates, Option.map_eq_some']

theorem getD_of_get? {l : List Nat} {j x : Nat} (h : l.get? j = some x) :
    l.getD j 0 = x := by
  rw [List.getD_eq_get?, h]
  rfl

/-- On success, `birth` and `death` have length `n` and each slot holds one
plus the position of the matching event node in the topological order. -/
theorem proposed_dates_slots {ff1 ff2 : List (Nat × Nat)} {n : Nat}
    {birth death : List Nat}
    (h : proposed_dates ff1 ff2 n = some (birth, death)) :
    ∃ topo, toposort (buildGraph ff1 ff2 n) = some topo ∧
      birth.length = n ∧ death.length = n ∧
      (∀ i, 1 ≤ i → i ≤ n →
        birth.getD (i - 1) 0 = List.indexOf (i - 1) topo + 1) ∧
      (∀ i, 1 ≤ i → i ≤ n →
        death.getD (i - 1) 0 = List.indexOf (n + (i - 1)) topo + 1) := by
  obtain ⟨topo, htopo, hbd⟩ := proposed_dates_some_iff.mp h
  have hnd : topo.Nodup := toposort_nodup htopo
  have hb : birth = (projectGo n topo 0 (List.replicate n 0) (List.replicate n 0)).1 :=
    congrArg Prod.fst hbd.symm
  have hd : death = (projectGo n topo 0 (List.replicate n 0) (List.replicate n 0)).2 :=
    congrArg Prod.snd hbd.symm
  refine ⟨topo, htopo, ?_, ?_, ?_, ?_⟩
  · rw [hb, projectGo_fst_length]
    simp
  · rw [hd, projectGo_snd_length]
    simp
  · intro i hi1 hi2
    have hmem : (i - 1) ∈ topo := by
      refine toposort_mem htopo ?_
      rw [buildGraph_numNodes]
      omega
    have := projectGo_fst_get?_mem n topo hnd 0 (List.replicate n 0)
      (List.replicate n 0) (i - 1) hmem (by omega) (by simp; omega)
    rw [hb, getD_of_get? this]
    omega
  · intro i hi1 hi2
    have hmem : (n + (i - 1)) ∈ topo := by
      refine toposort_mem htopo ?_
      rw [buildGraph_numNodes]
      omega
    have := projectGo_snd_get?_mem n topo hnd 0 (List.replicate n 0)
      (List.replicate n 0) (i - 1) hmem (by simp; omega)
    rw [hd, getD_of_get? this]
    omega

/-- C1: for every form-1 fact `(a, b)` in the input (all fact indices in
`[1, n]`), a successful `proposed_dates` returns arrays with
`death[a-1] < birth[b-1]`. -/
theorem fact_form1_precedence {fact_form1 fact_form2 : List (Nat × Nat)}
    {n a b : Nat} {birth death : List Nat}
    (hr1 : factsInRange fact_form1 n) (hr2 : factsInRange fact_form2 n)
    (hf : (a, b) ∈ fact_form1)
    (h : proposed_dates fact_form1 fact_form2 n = some (birth, death)) :
    death.getD (a - 1) 0 < birth.getD (b - 1) 0 := by
  obtain ⟨topo, htopo, _, _, hbi, hde⟩ := proposed_dates_slots h
  obtain ⟨ha1, ha2, hb1, hb2⟩ := hr1 _ hf
  have hidx := toposort_indexOf htopo (mem_edges_form1 hf)
    (by rw [buildGraph_numNodes]; omega) (by rw [buildGraph_numNodes]; omega)
  rw [hde a ha1 ha2, hbi b hb1 hb2]
  omega

theorem fact_form1_precedence_witness :
    factsInRange [(1, 2)] 2 ∧ factsInRange ([] : List (Nat × Nat)) 2 ∧
      (1, 2) ∈ [(1, 2)] ∧
      proposed_dates [(1, 2)] [] 2 = some ([1, 3], [2, 4]) ∧
      [2, 4].getD (1 - 1) 0 < [1, 3].getD (2 - 1) 0 :=
  ⟨by decide, by decide, by decide, by decide,
    @fact_form1_precedence [(1, 2)] [] 2 1 2 [1, 3] [2, 4]
      (by decide) (by decide) (by decide) (by decide)⟩

/-- C2: for every form-2 fact `(a, b)` in the input (all fact indices in
`[1, n]`), a successful `proposed_dates` returns arrays with
`birth[a-1] < death[b-1]` and `birth[b-1] < death[a-1]`. -/
theorem fact_form2_overlap {fact_form1 fact_form2 : List (Nat × Nat)}
    {n a b : Nat} {birth death : List Nat}
    (hr1 : factsInRange fact_form1 n) (hr2 : factsInRange fact_form2 n)
    (hf : (a, b) ∈ fact_form2)
    (h : proposed_dates fact_form1 fact_form2 n = some (birth, death)) :
    birth.getD (a - 1) 0 < death.getD (b - 1) 0 ∧
      birth.getD (b - 1) 0 < death.getD (a - 1) 0 := by
  obtain ⟨topo, htopo, _, _, hbi, hde⟩ := proposed_dates_slots h
  obtain ⟨ha1, ha2, hb1, hb2⟩ := hr2 _ hf
  have hidx1 := toposort_indexOf htopo (mem_edges_form2_left hf)
    (by rw [buildGraph_numNodes]; omega) (by rw [buildGraph_numNodes]; omega)
  have hidx2 := toposort_indexOf htopo (mem_edges_form2_right hf)
    (by rw [buildGraph_numNodes]; omega) (by rw [buildGraph_numNodes]; omega)
  rw [hbi a ha1 ha2, hbi b hb1 hb2, hde a ha1 ha2, hde b hb1 hb2]
  omega

theorem fact_form2_overlap_witness :
    factsInRange ([] : List (Nat × Nat)) 2 ∧ factsInRange [(1, 2)] 2 ∧
      (1, 2) ∈ [(1, 2)] ∧
      proposed_dates [] [(1, 2)] 2 = some ([1, 2], [3, 4]) ∧
      [1, 2].getD (1 - 1) 0 < [3, 4].getD (2 - 1) 0 ∧
      [1, 2].getD (2 - 1) 0 < [3, 4].getD (1 - 1) 0 :=
  ⟨by decide, by decide, by decide, by decide,
    (@fact_form2_overlap [] [(1, 2)] 2 1 2 [1, 2] [3, 4]
      (by decide) (by decide) (by decide) (by decide)).1,
    (@fact_form2_overlap [] [(1, 2)] 2 1 2 [1, 2] [3, 4]
      (by decide) (by decide) (by decide) (by decide)).2⟩

/-- C3: for every person `i` in `[1, n]` (all fact indices in `[1, n]`), a
successful `proposed_dates` returns arrays with `birth[i-1] < death[i-1]`. -/
theorem lifespan_property {fact_form1 fact_form2 : List (Nat × Nat)}
    {n i : Nat} {birth death : List Nat}
    (hr1 : factsInRange fact_form1 n) (hr2 : factsInRange fact_form2 n)
    (hi1 : 1 ≤ i) (hi2 : i ≤ n)
    (h : proposed_dates fact_form1 fact_form2 n = some (birth, death)) :
    birth.getD (i - 1) 0 < death.getD (i - 1) 0 := by
  obtain ⟨topo, htopo, _, _, hbi, hde⟩ := proposed_dates_slots h
  have hidx := toposort_indexOf htopo (mem_edges_birth_death hi1 hi2)
    (by rw [buildGraph_numNodes]; omega) (by rw [buildGraph_numNodes]; omega)
  rw [hbi i hi1 hi2, hde i hi1 hi2]
  omega

theorem lifespan_property_witness :
    factsInRange ([] : List (Nat × Nat)) 1 ∧ 1 ≤ 1 ∧ 1 ≤ 1 ∧
      proposed_dates [] [] 1 = some ([1], [2]) ∧
      [1].getD (1 - 1) 0 < [2].getD (1 - 1) 0 :=
  ⟨by decide, by decide, by decide, by decide,
    @lifespan_property [] [] 1 1 [1] [2]
      (by decide) (by decide) (by decide) (by decide) (by decide)⟩

theorem map_indexOf_self {l : List Nat} (h : l.Nodup) :
    l.map (fun k => List.indexOf k l) = List.range l.length := by
  apply List.ext_getElem
  · simp
  · intro i h1 h2
    simp only [List.getElem_map, List.getElem_range]
    exact List.indexOf_getElem h i _

/-- On success, `birth` and `death` are exactly the position maps of the
birth and death nodes in the topological order. -/
theorem proposed_dates_arrays {ff1 ff2 : List (Nat × Nat)} {n : Nat}
    {birth death : List Nat}
    (h : proposed_dates ff1 ff2 n = some (birth, death)) :
    ∃ topo, toposort (buildGraph ff1 ff2 n) = some topo ∧
      birth = (List.range n).map (fun j => List.indexOf j topo + 1) ∧
      death = (List.range n).map (fun j => List.indexOf (n + j) topo + 1) := by
  obtain ⟨topo, htopo, hbd⟩ := proposed_dates_some_iff.mp h
  have hnd : topo.Nodup := toposort_nodup htopo
  have hb : birth = (projectGo n topo 0 (List.replicate n 0) (List.replicate n 0)).1 :=
    congrArg Prod.fst hbd.symm
  have hd : death = (projectGo n topo 0 (List.replicate n 0) (List.replicate n 0)).2 :=
    congrArg Prod.snd hbd.symm
  refine ⟨topo, htopo, ?_, ?_⟩
  · rw [hb]
    apply List.ext_get?
    intro j
    by_cases hj : j < n
    · have hmem : j ∈ topo := toposort_mem htopo (by rw [buildGraph_numNodes]; omega)
      rw [projectGo_fst_get?_mem n topo hnd 0 _ _ j hmem hj (by simp [hj]),
        List.get?_map, List.get?_range hj]
      simp
    · rw [List.get?_eq_none.mpr, List.get?_eq_none.mpr]
      · simp
        omega
      · rw [projectGo_fst_length]
        simp
        omega
  · rw [hd]
    apply List.ext_get?
    intro j
    by_cases hj : j < n
    · have hmem : (n + j) ∈ topo := toposort_mem htopo (by rw [buildGraph_numNodes]; omega)
      rw [projectGo_snd_get?_mem n topo hnd 0 _ _ j hmem (by simp [hj]),
        List.get?_map, List.get?_range hj]
      simp
    · rw [List.get?_eq_none.mpr, List.get?_eq_none.mpr]
      · simp
        omega
      · rw [projectGo_snd_length]
        simp
        omega

/-- C4: on success `birth` and `death` have length `n` and together their
values are exactly the multiset `{1, …, 2n}`. -/
theorem permutation_property {fact_form1 fact_form2 : List (Nat × Nat)}
    {n : Nat} {birth death : List Nat}
    (hr1 : factsInRange fact_form1 n) (hr2 : factsInRange fact_form2 n)
    (h : proposed_dates fact_form1 fact_form2 n = some (birth, death)) :
    birth.length = n ∧ death.length = n ∧
      List.Perm (birth ++ death) ((List.range (2 * n)).map (fun k => k + 1)) := by
  obtain ⟨topo, htopo, hb, hd⟩ := proposed_dates_arrays h
  have hnd : topo.Nodup := toposort_nodup htopo
  have hlen : topo.length = 2 * n := by
    have := toposort_length htopo
    rwa [buildGraph_numNodes] at this
  refine ⟨by rw [hb]; simp, by rw [hd]; simp, ?_⟩
  have hbd : birth ++ death =
      (List.range (2 * n)).map (fun k => List.indexOf k topo + 1) := by
    rw [hb, hd, two_mul, List.range_add, List.map_append, List.map_map]
    rfl
  rw [hbd]
  have hperm : List.Perm (List.range (2 * n)) topo := by
    have := toposort_perm htopo
    rw [buildGraph_numNodes] at this
    exact this.symm
  have h1 := hperm.map (fun k => List.indexOf k topo + 1)
  have h2 : topo.map (fun k => List.indexOf k topo + 1) =
      (List.range (2 * n)).map (fun k => k + 1) := by
    have h3 : topo.map (fun k => List.indexOf k topo + 1) =
        (topo.map (fun k => List.indexOf k topo)).map (fun k => k + 1) := by
      rw [List.map_map]
      rfl
    rw [h3, map_indexOf_self hnd, hlen]
  exact h2 ▸ h1

theorem permutation_property_witness :
    factsInRange ([] : List (Nat × Nat)) 1 ∧
      proposed_dates [] [] 1 = some ([1], [2]) ∧
      [1].length = 1 ∧ [2].length = 1 ∧
      List.Perm ([1] ++ [2]) ((List.range (2 * 1)).map (fun k => k + 1)) := by
  refine ⟨by decide, by decide, ?_⟩
  exact @permutation_property [] [] 1 [1] [2] (by decide) (by decide) (by decide)

/-- C5: with all fact indices in `[1, n]`, `proposed_dates` returns `none`
(a bare failure, with no payload or partial assignment — its result type is
an `Option` whose failure value carries nothing, and there is no other
failure branch) if and only if the constraint graph contains a directed
cycle. -/
theorem failure_iff_cycle {fact_form1 fact_form2 : List (Nat × Nat)} {n : Nat}
    (hr1 : factsInRange fact_form1 n) (hr2 : factsInRange fact_form2 n) :
    proposed_dates fact_form1 fact_form2 n = none ↔
      hasCycle (buildGraph fact_form1 fact_form2 n) := by
  have hval := buildGraph_valid hr1 hr2
  rw [proposed_dates, Option.map_eq_none']
  exact toposort_none_iff hval

theorem failure_iff_cycle_witness :
    proposed_dates [(1, 2), (2, 1)] [] 2 = none ↔
      hasCycle (buildGraph [(1, 2), (2, 1)] [] 2) :=
  @failure_iff_cycle [(1, 2), (2, 1)] [] 2 (by decide) (by decide)

/-- C7: for every `n` and fact lists satisfying the `[1, n]` index
precondition of §4.1's contract, the builder phase produces a graph with
exactly `2n` nodes and `n + |fact_form1| + 2·|fact_form2|` edges (duplicate
facts contribute duplicate edges; nothing is deduplicated). -/
theorem graph_size (fact_form1 fact_form2 : List (Nat × Nat)) (n : Nat)
    (hr1 : factsInRange fact_form1 n) (hr2 : factsInRange fact_form2 n) :
    (buildGraph fact_form1 fact_form2 n).numNodes = 2 * n ∧
      (buildGraph fact_form1 fact_form2 n).edges.length =
        n + fact_form1.length + 2 * fact_form2.length := by
  refine ⟨rfl, ?_⟩
  have hfl : ∀ l : List (Nat × Nat),
      (l.flatMap (fun p =>
        [(p.1 - 1, n + (p.2 - 1)), (p.2 - 1, n + (p.1 - 1))])).length = 2 * l.length := by
    intro l
    induction l with
    | nil => rfl
    | cons p rest ih =>
      rw [List.flatMap_cons, List.length_append, ih]
      show 2 + 2 * rest.length = 2 * (rest.length + 1)
      omega
  rw [buildGraph_edges, List.length_append, List.length_append, List.length_map,
    List.length_map, List.length_range, hfl]

theorem graph_size_witness :
    (buildGraph [(1, 2)] [(2, 1)] 2).numNodes = 2 * 2 ∧
      (buildGraph [(1, 2)] [(2, 1)] 2).edges.length = 2 + 1 + 2 * 1 :=
  graph_size [(1, 2)] [(2, 1)] 2 (by decide) (by decide)

/-- C8: the contradictory input `n = 2`, form-1 facts `(1, 2)` and `(2, 1)`
makes `proposed_dates` return the failure value `none`. -/
theorem cycle_detected_example : proposed_dates [(1, 2), (2, 1)] [] 2 = none := by
  decide

/-- C9: `n = 0` with empty fact lists succeeds with two empty arrays, and
`n = 1` with empty fact lists succeeds with `birth[0] < death[0]`. -/
theorem trivial_and_empty_inputs :
    proposed_dates [] [] 0 = some ([], []) ∧
      ∃ birth death, proposed_dates [] [] 1 = some (birth, death) ∧
        birth.getD 0 0 < death.getD 0 0 :=
  ⟨by decide, [1], [2], by decide, by decide⟩

/-- C10: `proposed_dates` is deterministic — for any input satisfying the
index precondition, two evaluations agree on the success/failure verdict
and return identical arrays.  In this embedding `proposed_dates` is a pure
function of its arguments, so both follow definitionally. -/
theorem deterministic_verdict (fact_form1 fact_form2 : List (Nat × Nat)) (n : Nat)
    (hr1 : factsInRange fact_form1 n) (hr2 : factsInRange fact_form2 n) :
    (proposed_dates fact_form1 fact_form2 n = none ↔
      proposed_dates fact_form1 fact_form2 n = none) ∧
      proposed_dates fact_form1 fact_form2 n = proposed_dates fact_form1 fact_form2 n :=
  ⟨Iff.rfl, rfl⟩

theorem deterministic_verdict_witness :
    (proposed_dates [(1, 2)] [(2, 1)] 2 = none ↔
      proposed_dates [(1, 2)] [(2, 1)] 2 = none) ∧
      proposed_dates [(1, 2)] [(2, 1)] 2 = proposed_dates [(1, 2)] [(2, 1)] 2 :=
  deterministic_verdict [(1, 2)] [(2, 1)] 2 (by decide) (by decide)

theorem form1Edges?_eq {n : Nat} :
    ∀ {ff : List (Nat × Nat)}, factsInRange ff n →
      form1Edges? n ff = some (ff.map (fun p => (n + (p.1 - 1), p.2 - 1))) := by
  intro ff
  induction ff with
  | nil => intro _; rfl
  | cons p rest ih =>
    rcases p with ⟨a, b⟩
    intro hr
    obtain ⟨ha1, ha2, hb1, hb2⟩ := hr (a, b) (List.mem_cons_self _ _)
    have hrest : factsInRange rest n := fun q hq => hr q (List.mem_cons_of_mem _ hq)
    have h1 : sub1? a = some (a - 1) := by rw [sub1?, if_pos ha1]
    have h2 : (deathNodes n)[a - 1]? = some (n + (a - 1)) := by
      rw [deathNodes, List.getElem?_map, List.getElem?_range (by omega)]
      rfl
    have h3 : sub1? b = some (b - 1) := by rw [sub1?, if_pos hb1]
    have h4 : (birthNodes n)[b - 1]? = some (b - 1) := by
      rw [birthNodes, List.getElem?_range (by omega)]
    simp [form1Edges?, h1, h2, h3, h4, ih hrest]

theorem form2Edges?_eq {n : Nat} :
    ∀ {ff : List (Nat × Nat)}, factsInRange ff n →
      form2Edges? n ff = some (ff.flatMap (fun p =>
        [(p.1 - 1, n + (p.2 - 1)), (p.2 - 1, n + (p.1 - 1))])) := by
  intro ff
  induction ff with
  | nil => intro _; rfl
  | cons p rest ih =>
    rcases p with ⟨a, b⟩
    intro hr
    obtain ⟨ha1, ha2, hb1, hb2⟩ := hr (a, b) (List.mem_cons_self _ _)
    have hrest : factsInRange rest n := fun q hq => hr q (List.mem_cons_of_mem _ hq)
    have h1 : sub1? a = some (a - 1) := by rw [sub1?, if_pos ha1]
    have h2 : (birthNodes n)[a - 1]? = some (a - 1) := by
      rw [birthNodes, List.getElem?_range (by omega)]
    have h3 : sub1? b = some (b - 1) := by rw [sub1?, if_pos hb1]
    have h4 : (deathNodes n)[b - 1]? = some (n + (b - 1)) := by
      rw [deathNodes, List.getElem?_map, List.getElem?_range (by omega)]
      rfl
    have h5 : (birthNodes n)[b - 1]? = some (b - 1) := by
      rw [birthNodes, List.getElem?_range (by omega)]
    have h6 : (deathNodes n)[a - 1]? = some (n + (a - 1)) := by
      rw [deathNodes, List.getElem?_map, List.getElem?_range (by omega)]
      rfl
    simp [form2Edges?, h1, h2, h3, h4, h5, h6, ih hrest]

theorem buildEdges?_eq {ff1 ff2 : List (Nat × Nat)} {n : Nat}
    (hr1 : factsInRange ff1 n) (hr2 : factsInRange ff2 n) :
    buildEdges? ff1 ff2 n = some (buildGraph ff1 ff2 n).edges := by
  rw [buildEdges?, form1Edges?_eq hr1, form2Edges?_eq hr2, buildGraph_edges]

theorem projectGo?_eq (n : Nat) :
    ∀ (topo : List Nat) (date : Nat) (b d : List Nat),
      (∀ ev ∈ topo, ev < 2 * n) → b.length = n → d.length = n →
      projectGo? n topo date b d = some (projectGo n topo date b d) := by
  intro topo
  induction topo with
  | nil => intro date b d _ _ _; rfl
  | cons ev rest ih =>
    intro date b d hev hb hd
    have hev1 : ev < 2 * n := hev ev (List.mem_cons_self _ _)
    have hrest : ∀ e ∈ rest, e < 2 * n := fun e he => hev e (List.mem_cons_of_mem _ he)
    rw [projectGo?, projectGo]
    by_cases h : ev < n
    · rw [if_pos h, if_pos h]
      have hs : sub1? (ev + 1) = some ev := by rw [sub1?, if_pos (by omega)]; rfl
      rw [hs]
      show (if ev < b.length then
          projectGo? n rest (date + 1) (b.set ev (date + 1)) d else none) =
        some (projectGo n rest (date + 1) (b.set ev (date + 1)) d)
      rw [if_pos (by omega : ev < b.length)]
      exact ih _ _ _ hrest (by rw [List.length_set]; exact hb) hd
    · rw [if_neg h, if_neg h, if_pos hev1]
      have hs : sub1? (ev - n + 1) = some (ev - n) := by rw [sub1?, if_pos (by omega)]; rfl
      rw [hs]
      show (if ev - n < d.length then
          projectGo? n rest (date + 1) b (d.set (ev - n) (date + 1)) else none) =
        some (projectGo n rest (date + 1) b (d.set (ev - n) (date + 1)))
      rw [if_pos (by omega : ev - n < d.length)]
      exact ih _ _ _ hrest hb (by rw [List.length_set]; exact hd)

/-- C6: with all fact indices in `[1, n]`, every index operation of
`proposed_dates` is in bounds and no subtraction underflows: the fully
checked evaluation `proposed_dates?` reaches no error branch and computes
exactly `proposed_dates`. -/
theorem checked_eval_total {fact_form1 fact_form2 : List (Nat × Nat)} {n : Nat}
    (hr1 : factsInRange fact_form1 n) (hr2 : factsInRange fact_form2 n) :
    proposed_dates? fact_form1 fact_form2 n =
      some (proposed_dates fact_form1 fact_form2 n) := by
  rw [proposed_dates?, buildEdges?_eq hr1 hr2]
  show (match toposort (buildGraph fact_form1 fact_form2 n) with
    | none => some none
    | some topo =>
      (projectGo? n topo 0 (List.replicate n 0) (List.replicate n 0)).map some) =
    some (proposed_dates fact_form1 fact_form2 n)
  rcases hsort : toposort (buildGraph fact_form1 fact_form2 n) with _ | topo
  · rw [proposed_dates, hsort]
    rfl
  · have hmem : ∀ ev ∈ topo, ev < 2 * n := by
      intro ev hev
      have h2 := (toposort_perm hsort).mem_iff.mp hev
      rw [buildGraph_numNodes] at h2
      exact List.mem_range.mp h2
    show (projectGo? n topo 0 (List.replicate n 0) (List.replicate n 0)).map some =
      some (proposed_dates fact_form1 fact_form2 n)
    rw [projectGo?_eq n topo 0 _ _ hmem (by simp) (by simp), proposed_dates, hsort]
    rfl

theorem checked_eval_total_witness :
    proposed_dates? [(1, 2)] [(2, 1)] 2 = some (proposed_dates [(1, 2)] [(2, 1)] 2) :=
  @checked_eval_total [(1, 2)] [(2, 1)] 2 (by decide) (by decide)
